import Mathlib

/-!
# Verification of the `camera` rendering core (`src/camera.h`)

Shallow embedding of the path-tracing camera of this repository:

* the parallel render scheduler's row partition (`camera::render`, lines 34-47),
* the recursive path integrator (`camera::ray_color`),
* the ray sampler (`camera::get_ray`, `sample_square`, `defocus_disk_sample`),
* geometry setup (`camera::initialize`),
* the per-section framebuffer accumulation (`camera::render_section`) and the
  emission scaling (`camera::render`, lines 53-58).

C++ `double` is modelled by `ℝ`; C++ `int` by `ℤ` (non-negative loop counters
by `ℕ`).  The random source (thread-local `random_double` /
`random_in_unit_disk` streams) is modelled as a deterministic oracle indexed
by pixel coordinates and sample number, as the spec's "deterministic random
source" abstraction permits.  Concurrent sections write disjoint framebuffer
rows, so the parallel execution is linearized as a sequential fold over the
worker index.
-/

namespace Raytracer

/-! ## Scheduler row partition (`camera::render`, lines 34-47)

```cpp
int thread_count = std::thread::hardware_concurrency();
int rows_per_thread = image_height / thread_count;
...
for (int t = 0; t < thread_count; t++) {
  int start_row = t * rows_per_thread;
  int end_row = (t==thread_count-1) ? image_height : start_row + rows_per_thread;
  ...
}
```
-/

/-- `int thread_count = std::thread::hardware_concurrency();` — the worker
count is taken verbatim from the platform-reported concurrency, with no
adjustment (in particular no fallback to 1 when the platform reports 0). -/
def worker_count (hardware_concurrency : ℕ) : ℕ := hardware_concurrency

/-- `int rows_per_thread = image_height / thread_count;` (C++ integer
division of non-negative operands, i.e. `ℕ` floor division). -/
def rows_per_thread (H W : ℕ) : ℕ := H / W

/-- `int start_row = t * rows_per_thread;` -/
def start_row (H W t : ℕ) : ℕ := t * rows_per_thread H W

/-- `int end_row = (t==thread_count-1) ? image_height : start_row + rows_per_thread;` -/
def end_row (H W t : ℕ) : ℕ :=
  if t = W - 1 then H else start_row H W t + rows_per_thread H W

/-- Worker `t` is assigned row `j`: `start_row ≤ j < end_row`, the rows the
`j`-loop of `render_section` visits. -/
def ownsRow (H W t j : ℕ) : Prop := start_row H W t ≤ j ∧ j < end_row H W t

instance (H W t j : ℕ) : Decidable (ownsRow H W t j) := by
  unfold ownsRow; infer_instance

/-- Worker `t` writes flat framebuffer index `idx`: some pixel `(i, j)` of
its row range has `idx = j * width + i` (`int index = j * image_width + i;`
in `render_section`). -/
def writesIndex (H W width t idx : ℕ) : Prop :=
  ∃ j i, ownsRow H W t j ∧ i < width ∧ idx = j * width + i

/-! ## Vector, color, ray and interval primitives

`camera.h` includes them from the external math headers (`vec3.h`, `ray.h`,
`interval.h`), which are not under `src/`; the spec (§1, §3) treats them as
external collaborators.  They are modelled from the spec below. -/

/-- Modelled from the spec: the 3-component real vector of the missing
`vec3.h` — "a 3-component real-valued accumulator (not yet gamma/clamped);
supports addition and scalar scaling" (§3), with components accessed as
`x()`, `y()`, `z()`. -/
@[ext] structure vec3 where
  x : ℝ
  y : ℝ
  z : ℝ

/-- `point3` is an alias for `vec3`. -/
abbrev point3 := vec3

/-- `color` is an alias for `vec3`. -/
abbrev color := vec3

instance : Zero vec3 := ⟨⟨0, 0, 0⟩⟩
instance : Add vec3 := ⟨fun a b => ⟨a.x + b.x, a.y + b.y, a.z + b.z⟩⟩
instance : Neg vec3 := ⟨fun a => ⟨-a.x, -a.y, -a.z⟩⟩
instance : Sub vec3 := ⟨fun a b => ⟨a.x - b.x, a.y - b.y, a.z - b.z⟩⟩

/-- Component-wise product `v * w` (used as `attenuation * color`). -/
instance : Mul vec3 := ⟨fun a b => ⟨a.x * b.x, a.y * b.y, a.z * b.z⟩⟩

/-- Scalar multiple `t • v`, modelling the C++ `t * v` / `v * t`. -/
instance : SMul ℝ vec3 := ⟨fun t a => ⟨t * a.x, t * a.y, t * a.z⟩⟩

/-- `v / t = (1/t) * v`, modelling the C++ `operator/(vec3, double)`. -/
noncomputable instance : HDiv vec3 ℝ vec3 := ⟨fun a t => (1 / t) • a⟩

instance : AddCommMonoid vec3 where
  add_assoc a b c := by ext <;> exact add_assoc _ _ _
  zero_add a := by ext <;> exact zero_add _
  add_zero a := by ext <;> exact add_zero _
  add_comm a b := by ext <;> exact add_comm _ _
  nsmul := nsmulRec

/-- Modelled from the spec: `vec3::length_squared()`. -/
def vec3.length_squared (v : vec3) : ℝ := v.x * v.x + v.y * v.y + v.z * v.z

/-- Modelled from the spec: `vec3::length() = sqrt(length_squared())`. -/
noncomputable def vec3.length (v : vec3) : ℝ := Real.sqrt v.length_squared

/-- Modelled from the spec: `unit_vector(v) = v / v.length()` — "normalizing
the ray direction" (§4.3). -/
noncomputable def unit_vector (v : vec3) : vec3 := v / v.length

/-- Modelled from the spec: `cross(u, v)` — the basis is "built from
(lookfrom − lookat) and up-vector via cross products" (§3). -/
def cross (u v : vec3) : vec3 :=
  ⟨u.y * v.z - u.z * v.y, u.z * v.x - u.x * v.z, u.x * v.y - u.y * v.x⟩

/-- Modelled from the spec: a ray is "origin point + direction vector (not
normalized)" (§3), with accessors `origin()` and `direction()`. -/
structure ray where
  origin : point3
  direction : vec3

/-- Modelled from the spec: the parametric interval `interval(min, max)`
restricting acceptable hit distances (§4.3); `infinity` (the C++ double
infinity) is modelled as `⊤ : EReal`. -/
structure interval where
  min : ℝ
  max : EReal

/-- `infinity` from the missing `rtweekend.h`: the IEEE positive infinity,
modelled as `⊤ : EReal`. -/
def infinity : EReal := ⊤

/-! ## Scene and material collaborators (§6 external interfaces)

`hittable`, `material` and `hit_record` live in the headers `hittable.h` /
`material.h`, not under `src/`; they are modelled from the spec's interface
contracts: `hit` returns the nearest intersection or nothing, `scatter`
returns an attenuation and outgoing ray or signals absorption (§6). -/

/-- Modelled from the spec: the data fields of a `hit_record` —
"intersection point, surface normal, … parametric distance along the ray,
front-face flag" (§3) — without its material reference. -/
structure hit_record_core where
  p : point3
  normal : vec3
  t : ℝ
  front_face : Bool

/-- Modelled from the spec: a material is its scatter behavior,
`scatter(incoming_ray, hit_record, out attenuation, out scattered) → bool`;
the `bool`+out-parameters signature is modelled as an `Option` result, with
`none` meaning "absorbed" (§6). -/
structure material where
  scatter : ray → hit_record_core → Option (color × ray)

/-- Modelled from the spec: a `hit_record` is its data fields plus a
non-owning reference to the responsible material (§3). -/
structure hit_record where
  core : hit_record_core
  mat : material

/-- Modelled from the spec: a scene is its `hit` interface,
`hit(ray, interval, out hit_record) → bool`, returning the nearest valid
intersection within the interval or nothing (§6); the `bool`+out-parameter
signature is modelled as an `Option` result. -/
structure hittable where
  hit : ray → interval → Option hit_record

/-! ## Path integrator (`camera::ray_color`, lines 144-159)

```cpp
color ray_color(const ray& r, int depth, const hittable& world) const {
  if (depth <= 0) return color(0, 0, 0);
  hit_record rec;
  if (world.hit(r, interval(0.001, infinity), rec)) {
    ray scattered;
    color attenuation;
    if (rec.mat->scatter(r, rec, attenuation, scattered))
      return attenuation * ray_color(scattered, depth-1, world);
    return color(0, 0, 0);
  }
  vec3 unit_direction = unit_vector(r.direction());
  auto a = 0.5*(unit_direction.y() + 1.0);
  return (1.0-a)*color(1.0,1.0,1.0) + a*color(0.5, 0.7, 1.0);
}
```

`rec.mat->scatter(r, rec, attenuation, scattered)` is modelled as
`rec.mat.scatter r rec.core`. -/

/-- The recursive path integrator `camera::ray_color`.  `depth` is a C++
`int`, modelled as `ℤ`. -/
noncomputable def ray_color (world : hittable) (r : ray) (depth : ℤ) : color :=
  if _h : depth ≤ 0 then ⟨0, 0, 0⟩
  else
    match world.hit r ⟨0.001, infinity⟩ with
    | some rec =>
      match rec.mat.scatter r rec.core with
      | some (attenuation, scattered) =>
        attenuation * ray_color world scattered (depth - 1)
      | none => ⟨0, 0, 0⟩
    | none =>
      let unit_direction := unit_vector r.direction
      let a := 0.5 * (unit_direction.y + 1.0)
      (1.0 - a) • (⟨1.0, 1.0, 1.0⟩ : color) + a • (⟨0.5, 0.7, 1.0⟩ : color)
termination_by depth.toNat
decreasing_by omega

/-! ## Camera state and geometry setup (`camera::initialize`, lines 76-106)

The `camera` class is modelled as a record holding both the public
configuration fields (with the defaults of lines 14-25) and the private
derived fields that `initialize` overwrites.  The `std::mutex` and the
`std::atomic<int> sections_remaining` progress counter take no part in the
framebuffer computation and are not modelled. -/

/-- The `camera` class fields: public configuration (aspect_ratio …
focus_dist) and private derived state (image_height … defocus_disk_v). -/
structure camera where
  aspect_ratio : ℝ
  image_width : ℤ
  samples_per_pixel : ℤ
  max_depth : ℤ
  vfov : ℝ
  lookfrom : point3
  lookat : point3
  vup : vec3
  defocus_angle : ℝ
  focus_dist : ℝ
  image_height : ℤ
  pixel_samples_scale : ℝ
  center : point3
  pixel00_loc : point3
  pixel_delta_u : vec3
  pixel_delta_v : vec3
  u : vec3
  v : vec3
  w : vec3
  defocus_disk_u : vec3
  defocus_disk_v : vec3

/-- Modelled from the spec: `degrees_to_radians` from the missing
`rtweekend.h` (standard conversion, `d · π / 180`). -/
noncomputable def degrees_to_radians (degrees : ℝ) : ℝ := degrees * Real.pi / 180

/-- The C++ `int(x)` conversion of a `double`: truncation toward zero. -/
noncomputable def cppTrunc (x : ℝ) : ℤ := if 0 ≤ x then ⌊x⌋ else ⌈x⌉

/-- `camera::initialize` (lines 76-106): recomputes every derived field
from the public configuration; public fields are untouched. -/
noncomputable def initializeCamera (c : camera) : camera :=
  let ih0 : ℤ := cppTrunc ((c.image_width : ℝ) / c.aspect_ratio)
  let image_height : ℤ := if ih0 < 1 then 1 else ih0
  let pixel_samples_scale : ℝ := 1.0 / (c.samples_per_pixel : ℝ)
  let center := c.lookfrom
  let theta := degrees_to_radians c.vfov
  let h := Real.tan (theta / 2)
  let viewport_height := 2 * h * c.focus_dist
  let viewport_width :=
    viewport_height * ((c.image_width : ℝ) / (image_height : ℝ))
  let w := unit_vector (c.lookfrom - c.lookat)
  let u := unit_vector (cross c.vup w)
  let v := cross w u
  let viewport_u := viewport_width • u
  let viewport_v := viewport_height • (-v)
  let pixel_delta_u := viewport_u / ((c.image_width : ℝ))
  let pixel_delta_v := viewport_v / ((image_height : ℝ))
  let viewport_upper_left :=
    center - c.focus_dist • w - viewport_u / (2 : ℝ) - viewport_v / (2 : ℝ)
  let pixel00_loc :=
    viewport_upper_left + (0.5 : ℝ) • (pixel_delta_u + pixel_delta_v)
  let defocus_radius :=
    c.focus_dist * Real.tan (degrees_to_radians (c.defocus_angle / 2))
  { c with
    image_height := image_height
    pixel_samples_scale := pixel_samples_scale
    center := center
    pixel00_loc := pixel00_loc
    pixel_delta_u := pixel_delta_u
    pixel_delta_v := pixel_delta_v
    u := u
    v := v
    w := w
    defocus_disk_u := defocus_radius • u
    defocus_disk_v := defocus_radius • v }

/-! ## Ray sampler (`camera::get_ray` / `sample_square` /
`defocus_disk_sample`, lines 127-142)

`sample_square()` draws two `random_double()` values and
`defocus_disk_sample()` draws one `random_in_unit_disk()` point; these
draws are passed in explicitly as the sampled values `r1, r2` and `p`. -/

/-- `camera::sample_square`: `vec3(random_double() - 0.5,
random_double() - 0.5, 0)`, with the two uniform draws passed in. -/
def sample_square (r1 r2 : ℝ) : vec3 := ⟨r1 - 0.5, r2 - 0.5, 0⟩

/-- `camera::defocus_disk_sample`: `center + p[0]*defocus_disk_u +
p[1]*defocus_disk_v`, with the unit-disk draw `p` passed in. -/
def defocus_disk_sample (c : camera) (p : vec3) : point3 :=
  c.center + p.x • c.defocus_disk_u + p.y • c.defocus_disk_v

/-- `camera::get_ray(i, j)` (lines 127-133), with the `sample_square()`
offset and the `random_in_unit_disk()` draw passed in explicitly. -/
noncomputable def get_ray (c : camera) (i j : ℕ) (offset : vec3) (p : vec3) : ray :=
  let pixel_sample :=
    c.pixel00_loc + ((i : ℝ) + offset.x) • c.pixel_delta_u +
      ((j : ℝ) + offset.y) • c.pixel_delta_v
  let ray_origin := if c.defocus_angle ≤ 0 then c.center else defocus_disk_sample c p
  ⟨ray_origin, pixel_sample - ray_origin⟩

/-! ## Worker sections and the framebuffer
(`camera::render_section`, lines 108-125, and `camera::render`, lines 27-61)

The framebuffer `std::vector<color>(image_width * image_height)` is modelled
as a total function `ℕ → color`, value-initialized to `color()`, i.e. zero.
Each worker owns a disjoint set of rows (`ownsRow_existsUnique`), so running
the concurrent sections is linearized as a sequential fold over the worker
index `t`. -/

/-- A deterministic random source: the values the thread-local
`random_double()` / `random_in_unit_disk()` streams hand to the two
`sample_square()` draws and the `defocus_disk_sample()` draw of sample `s`
of pixel `(i, j)`. -/
structure rng_source where
  jitter1 : ℕ → ℕ → ℕ → ℝ
  jitter2 : ℕ → ℕ → ℕ → ℝ
  disk : ℕ → ℕ → ℕ → vec3

/-- `ray r = get_ray(i,j);` for sample `s`, drawing from the random source. -/
noncomputable def sample_ray (c : camera) (g : rng_source) (i j s : ℕ) : ray :=
  get_ray c i j (sample_square (g.jitter1 i j s) (g.jitter2 i j s)) (g.disk i j s)

/-- The sample loop of `render_section` (lines 111-116): starting from
`color pixel_color(0,0,0)`, accumulate `pixel_color += ray_color(r,
max_depth, world)` over `samples_per_pixel` samples. -/
noncomputable def pixel_color_sum (c : camera) (world : hittable)
    (g : rng_source) (i j : ℕ) : color :=
  (List.range c.samples_per_pixel.toNat).foldl
    (fun acc s => acc + ray_color world (sample_ray c g i j s) c.max_depth)
    ⟨0, 0, 0⟩

/-- `framebuffer[index] = pixel_color;` — point update of the framebuffer. -/
def write_fb (fb : ℕ → color) (idx : ℕ) (cval : color) : ℕ → color :=
  fun k => if k = idx then cval else fb k

/-- The inner `i`-loop of `render_section` over one row `j` (lines 110-120). -/
noncomputable def render_row (c : camera) (world : hittable) (g : rng_source)
    (j : ℕ) (fb : ℕ → color) : ℕ → color :=
  (List.range c.image_width.toNat).foldl
    (fun fbi i =>
      write_fb fbi (j * c.image_width.toNat + i) (pixel_color_sum c world g i j))
    fb

/-- `camera::render_section(world, framebuffer, start_row, end_row)`
(lines 108-125): the `j`-loop from `start_row` (inclusive) to `end_row`
(exclusive).  The progress-counter decrement (lines 123-124) does not touch
the framebuffer and is not modelled. -/
noncomputable def render_section (c : camera) (world : hittable)
    (g : rng_source) (sr er : ℕ) (fb : ℕ → color) : ℕ → color :=
  (List.range' sr (er - sr)).foldl (fun fbj j => render_row c world g j fbj) fb

/-- The framebuffer produced by `camera::render(world)` (lines 27-51):
initialize, allocate a zero framebuffer, compute the row partition from the
platform-reported `hardware_concurrency` value `hc`, and run every worker's
section over its range. -/
noncomputable def render_fb (c0 : camera) (world : hittable) (g : rng_source)
    (hc : ℕ) : ℕ → color :=
  let c := initializeCamera c0
  let H := c.image_height.toNat
  let W := worker_count hc
  (List.range W).foldl
    (fun fb t => render_section c world g (start_row H W t) (end_row H W t) fb)
    (fun _ => ⟨0, 0, 0⟩)

/-- The value handed to emission for pixel `(i, j)` (lines 53-58):
`write_color(std::cout, pixel_samples_scale * framebuffer[index])` with
`index = j * image_width + i`. -/
noncomputable def emitted_pixel (c0 : camera) (world : hittable)
    (g : rng_source) (hc : ℕ) (i j : ℕ) : color :=
  let c := initializeCamera c0
  c.pixel_samples_scale •
    render_fb c0 world g hc (j * c.image_width.toNat + i)

/-- The `camera` class field defaults (lines 14-25), with the private
derived fields value-initialized (all zero). -/
noncomputable def cam_default : camera :=
  { aspect_ratio := 16.0 / 9.0
    image_width := 400
    samples_per_pixel := 10
    max_depth := 10
    vfov := 90
    lookfrom := ⟨0, 0, 0⟩
    lookat := ⟨0, 0, -1⟩
    vup := ⟨0, 1, 0⟩
    defocus_angle := 0
    focus_dist := 10
    image_height := 0
    pixel_samples_scale := 0
    center := ⟨0, 0, 0⟩
    pixel00_loc := ⟨0, 0, 0⟩
    pixel_delta_u := ⟨0, 0, 0⟩
    pixel_delta_v := ⟨0, 0, 0⟩
    u := ⟨0, 0, 0⟩
    v := ⟨0, 0, 0⟩
    w := ⟨0, 0, 0⟩
    defocus_disk_u := ⟨0, 0, 0⟩
    defocus_disk_v := ⟨0, 0, 0⟩ }

/-- A minimal 1×1-pixel, 1-sample configuration used to instantiate the
render theorems on a concrete input. -/
noncomputable def cam_unit : camera :=
  { cam_default with
    aspect_ratio := 1
    image_width := 1
    samples_per_pixel := 1
    max_depth := 1 }

/-- `cam_unit` with stale junk left in the private derived fields, standing
for leftover state of an earlier render. -/
noncomputable def cam_unit_stale : camera :=
  { cam_unit with
    image_height := 999
    pixel_samples_scale := 7
    center := ⟨5, 5, 5⟩
    pixel00_loc := ⟨3, 4, 5⟩ }

/-- The empty scene: `hit` reports no intersection for any ray. -/
def empty_world : hittable := ⟨fun _ _ => none⟩

/-- An all-zero deterministic random source. -/
def zero_rng : rng_source := ⟨fun _ _ _ => 0, fun _ _ _ => 0, fun _ _ _ => ⟨0, 0, 0⟩⟩

/-- A hit record whose material absorbs every ray. -/
def absorbing_rec : hit_record :=
  ⟨⟨⟨0, 0, 0⟩, ⟨0, 1, 0⟩, 1, true⟩, ⟨fun _ _ => none⟩⟩

/-- A scene whose `hit` always reports `absorbing_rec`. -/
def absorbing_world : hittable := ⟨fun _ _ => some absorbing_rec⟩

/-! ### Fold-write lookup lemmas -/

@[simp] theorem vec3_zero_def : (0 : vec3) = ⟨0, 0, 0⟩ := rfl
@[simp] theorem vec3_add_def (a b : vec3) :
    a + b = ⟨a.x + b.x, a.y + b.y, a.z + b.z⟩ := rfl
@[simp] theorem vec3_neg_def (a : vec3) : -a = ⟨-a.x, -a.y, -a.z⟩ := rfl
@[simp] theorem vec3_sub_def (a b : vec3) :
    a - b = ⟨a.x - b.x, a.y - b.y, a.z - b.z⟩ := rfl
@[simp] theorem vec3_mul_def (a b : vec3) :
    a * b = ⟨a.x * b.x, a.y * b.y, a.z * b.z⟩ := rfl
@[simp] theorem vec3_smul_def (t : ℝ) (a : vec3) :
    t • a = ⟨t * a.x, t * a.y, t * a.z⟩ := rfl
@[simp] theorem vec3_div_def (a : vec3) (t : ℝ) : a / t = (1 / t) • a := rfl

/-- Each assigned row range stays inside `[0, H)` whenever `W ≥ 1`. -/
theorem end_row_le (H W : ℕ) (t : ℕ) (ht : t < W) :
    end_row H W t ≤ H := by
  unfold end_row start_row rows_per_thread
  by_cases h : t = W - 1
  · simp [h]
  · have ht' : t + 1 ≤ W := ht
    simp only [if_neg h]
    calc t * (H / W) + H / W = (t + 1) * (H / W) := by ring
    _ ≤ W * (H / W) := Nat.mul_le_mul_right _ ht'
    _ = (H / W) * W := by ring
    _ ≤ H := Nat.div_mul_le_self H W

/-- Core partition fact: for any worker count `W ≥ 1`, every row `j < H` is
owned by exactly one worker `t < W`. -/
theorem ownsRow_existsUnique (H W : ℕ) (hW : 1 ≤ W) (j : ℕ) (hj : j < H) :
    ∃! t, t < W ∧ ownsRow H W t j := by
  set q := H / W with hq
  have hlast : W - 1 < W := by omega
  -- existence
  have hex : ∃ t, t < W ∧ ownsRow H W t j := by
    by_cases hbig : (W - 1) * q ≤ j
    · exact ⟨W - 1, hlast, hbig, by simp [end_row, hj]⟩
    · push_neg at hbig
      have hq0 : 0 < q := by
        rcases Nat.eq_zero_or_pos q with h0 | h0
        · simp [h0] at hbig
        · exact h0
      refine ⟨j / q, ?_, ?_, ?_⟩
      · have : j / q < W - 1 := (Nat.div_lt_iff_lt_mul hq0).mpr (by omega)
        omega
      · exact Nat.div_mul_le_self j q
      · have hne : j / q ≠ W - 1 := by
          have : j / q < W - 1 := (Nat.div_lt_iff_lt_mul hq0).mpr (by omega)
          omega
        have hmod := Nat.div_add_mod j q
        have hlt := Nat.mod_lt j hq0
        have hcomm : j / q * q = q * (j / q) := Nat.mul_comm _ _
        simp only [end_row, start_row, rows_per_thread, ← hq, if_neg hne]
        omega
  -- uniqueness
  rcases hex with ⟨t, ht, hown⟩
  refine ⟨t, ⟨ht, hown⟩, ?_⟩
  rintro t' ⟨ht', hown'⟩
  by_contra hne
  -- wlog t < t' or t' < t; show ranges of distinct workers are disjoint
  have key : ∀ a b, a < b → b < W → ¬(ownsRow H W a j ∧ ownsRow H W b j) := by
    rintro a b hab hbW ⟨⟨_, hae⟩, ⟨hbs, _⟩⟩
    have hane : a ≠ W - 1 := by omega
    have : end_row H W a ≤ start_row H W b := by
      simp only [end_row, start_row, rows_per_thread, if_neg hane]
      have : (a + 1) * (H / W) ≤ b * (H / W) :=
        Nat.mul_le_mul_right _ (by omega)
      calc a * (H / W) + H / W = (a + 1) * (H / W) := by ring
      _ ≤ b * (H / W) := this
    omega
  rcases Nat.lt_or_ge t t' with h | h
  · exact key t t' h ht' ⟨hown, hown'⟩
  · have h' : t' < t := by omega
    exact key t' t h' ht ⟨hown', hown⟩

/-- One-step unfolding of `ray_color` at non-positive depth. -/
theorem ray_color_base (world : hittable) (r : ray) (depth : ℤ)
    (h : depth ≤ 0) : ray_color world r depth = ⟨0, 0, 0⟩ := by
  rw [ray_color]; simp [h]

/-- One-step unfolding of `ray_color` when the scene reports a hit. -/
theorem ray_color_hit (world : hittable) (r : ray) (depth : ℤ)
    (h : ¬depth ≤ 0) (rec : hit_record)
    (hh : world.hit r ⟨0.001, infinity⟩ = some rec) :
    ray_color world r depth =
      match rec.mat.scatter r rec.core with
      | some (attenuation, scattered) =>
        attenuation * ray_color world scattered (depth - 1)
      | none => ⟨0, 0, 0⟩ := by
  rw [ray_color]; simp [h, hh]

/-- One-step unfolding of `ray_color` when the scene reports no hit. -/
theorem ray_color_miss_eq (world : hittable) (r : ray) (depth : ℤ)
    (h : ¬depth ≤ 0) (hh : world.hit r ⟨0.001, infinity⟩ = none) :
    ray_color world r depth =
      (1.0 - 0.5 * ((unit_vector r.direction).y + 1.0)) •
          (⟨1.0, 1.0, 1.0⟩ : color) +
        (0.5 * ((unit_vector r.direction).y + 1.0)) •
          (⟨0.5, 0.7, 1.0⟩ : color) := by
  rw [ray_color]; simp [h, hh]


/-- Decomposition of a row-major index is unique: distinct `(row, column)`
pairs with in-range columns give distinct flat indices. -/
theorem row_index_inj (width j j' i i' : ℕ) (hi : i < width) (hi' : i' < width)
    (h : j * width + i = j' * width + i') : j = j' ∧ i = i' := by
  have hw : 0 < width := by omega
  have h1 : (j * width + i) / width = j := by
    rw [Nat.mul_comm j width, Nat.mul_add_div hw, Nat.div_eq_of_lt hi, Nat.add_zero]
  have h2 : (j' * width + i') / width = j' := by
    rw [Nat.mul_comm j' width, Nat.mul_add_div hw, Nat.div_eq_of_lt hi', Nat.add_zero]
  have hj : j = j' := by rw [← h1, ← h2, h]
  constructor
  · exact hj
  · subst hj; omega

/-- Generic lookup through a left fold of index-conditional writes: if every
step of the fold either sets index `idx` to `val` (steps satisfying `P`) or
leaves `idx` unchanged, then the fold's result at `idx` is `val` when some
step sets it and the initial value when none does. -/
theorem foldl_write_lookup (f : (ℕ → color) → ℕ → (ℕ → color)) (idx : ℕ)
    (P : ℕ → Prop) (val : color) :
    ∀ l : List ℕ,
      (∀ fb t, t ∈ l → P t → f fb t idx = val) →
      (∀ fb t, t ∈ l → ¬P t → f fb t idx = fb idx) →
      ∀ fb : ℕ → color,
        ((∃ t ∈ l, P t) → l.foldl f fb idx = val) ∧
        ((∀ t ∈ l, ¬P t) → l.foldl f fb idx = fb idx) := by
  intro l
  induction l with
  | nil =>
    intro _ _ fb
    exact ⟨fun h => by simp at h, fun _ => rfl⟩
  | cons a l ih =>
    intro hset hpres fb
    have hset' : ∀ fb t, t ∈ l → P t → f fb t idx = val := fun fb t ht =>
      hset fb t (List.mem_cons_of_mem a ht)
    have hpres' : ∀ fb t, t ∈ l → ¬P t → f fb t idx = fb idx := fun fb t ht =>
      hpres fb t (List.mem_cons_of_mem a ht)
    constructor
    · rintro ⟨t, htl, hPt⟩
      by_cases hl : ∃ t ∈ l, P t
      · exact (ih hset' hpres' (f fb a)).1 hl
      · push_neg at hl
        have hta : t = a := by
          rcases List.mem_cons.mp htl with h | h
          · exact h
          · exact absurd hPt (hl t h)
        subst hta
        rw [List.foldl_cons, (ih hset' hpres' (f fb t)).2 hl,
          hset fb t (List.mem_cons_self t l) hPt]
    · intro hnone
      rw [List.foldl_cons,
        (ih hset' hpres' (f fb a)).2 (fun t ht => hnone t (List.mem_cons_of_mem a ht)),
        hpres fb a (List.mem_cons_self a l) (hnone a (List.mem_cons_self a l))]

/-- One row pass writes its own pixels: after `render_row` over row `j`,
index `j * width + i` holds that pixel's accumulated color. -/
theorem render_row_set (c : camera) (world : hittable) (g : rng_source)
    (j i : ℕ) (hi : i < c.image_width.toNat) (fb : ℕ → color) :
    render_row c world g j fb (j * c.image_width.toNat + i) =
      pixel_color_sum c world g i j := by
  set width := c.image_width.toNat with hwidth
  have := foldl_write_lookup
    (fun fbi i' => write_fb fbi (j * width + i') (pixel_color_sum c world g i' j))
    (j * width + i) (fun i' => i' = i) (pixel_color_sum c world g i j)
    (List.range width)
    (by rintro fb' t _ rfl; simp [write_fb])
    (by
      intro fb' t _ hne
      have hne' : j * width + i ≠ j * width + t := by omega
      simp [write_fb, hne'])
    fb
  exact this.1 ⟨i, List.mem_range.mpr hi, rfl⟩

/-- A row pass leaves indices outside its row untouched. -/
theorem render_row_preserve (c : camera) (world : hittable) (g : rng_source)
    (j idx : ℕ) (h : ∀ i < c.image_width.toNat, idx ≠ j * c.image_width.toNat + i)
    (fb : ℕ → color) : render_row c world g j fb idx = fb idx := by
  set width := c.image_width.toNat with hwidth
  have := foldl_write_lookup
    (fun fbi i' => write_fb fbi (j * width + i') (pixel_color_sum c world g i' j))
    idx (fun _ => False) ⟨0, 0, 0⟩
    (List.range width)
    (by intro fb' t _ hf; exact absurd hf (by simp))
    (by
      intro fb' t ht _
      have hne' := h t (List.mem_range.mp ht)
      simp [write_fb, hne'])
    fb
  exact this.2 (by simp)

/-- A section writes the pixels of every row it is assigned. -/
theorem render_section_set (c : camera) (world : hittable) (g : rng_source)
    (sr er j i : ℕ) (hsr : sr ≤ j) (her : j < er)
    (hi : i < c.image_width.toNat) (fb : ℕ → color) :
    render_section c world g sr er fb (j * c.image_width.toNat + i) =
      pixel_color_sum c world g i j := by
  set width := c.image_width.toNat with hwidth
  have := foldl_write_lookup
    (fun fbj j' => render_row c world g j' fbj)
    (j * width + i) (fun j' => j' = j) (pixel_color_sum c world g i j)
    (List.range' sr (er - sr))
    (by rintro fb' t _ rfl; exact render_row_set c world g t i hi fb')
    (by
      intro fb' t _ hne
      refine render_row_preserve c world g t _ ?_ fb'
      intro i' hi' heq
      exact hne (row_index_inj width t j i' i hi' hi heq.symm).1)
    fb
  refine this.1 ⟨j, ?_, rfl⟩
  have : j ∈ List.range' sr (er - sr) ↔ sr ≤ j ∧ j < sr + (er - sr) :=
    List.mem_range'_1
  rw [this]
  omega

/-- A section leaves every index outside its assigned rows untouched. -/
theorem render_section_preserve (c : camera) (world : hittable)
    (g : rng_source) (sr er j i : ℕ) (hi : i < c.image_width.toNat)
    (hout : ¬(sr ≤ j ∧ j < er)) (fb : ℕ → color) :
    render_section c world g sr er fb (j * c.image_width.toNat + i) =
      fb (j * c.image_width.toNat + i) := by
  set width := c.image_width.toNat with hwidth
  have := foldl_write_lookup
    (fun fbj j' => render_row c world g j' fbj)
    (j * width + i) (fun _ => False) ⟨0, 0, 0⟩
    (List.range' sr (er - sr))
    (by intro fb' t _ hf; exact absurd hf (by simp))
    (by
      intro fb' t ht _
      refine render_row_preserve c world g t _ ?_ fb'
      intro i' hi' heq
      have htj : t = j := (row_index_inj width t j i' i hi' hi heq.symm).1
      have hmem : sr ≤ t ∧ t < sr + (er - sr) := List.mem_range'_1.mp ht
      omega)
    fb
  exact this.2 (by simp)

/-- After all workers finish, the framebuffer at row-major index
`j * width + i` holds the per-pixel sample accumulation of pixel `(i, j)`. -/
theorem render_fb_lookup (c0 : camera) (world : hittable) (g : rng_source)
    (hc : ℕ) (hW : 1 ≤ hc) (i j : ℕ)
    (hi : i < (initializeCamera c0).image_width.toNat)
    (hj : j < (initializeCamera c0).image_height.toNat) :
    render_fb c0 world g hc
        (j * (initializeCamera c0).image_width.toNat + i) =
      pixel_color_sum (initializeCamera c0) world g i j := by
  set c := initializeCamera c0 with hcdef
  set H := c.image_height.toNat with hHdef
  set W := worker_count hc with hWdef
  have hW1 : 1 ≤ W := hW
  obtain ⟨t0, ⟨ht0W, ht0own⟩, _⟩ := ownsRow_existsUnique H W hW1 j hj
  have hmain := foldl_write_lookup
    (fun fb t => render_section c world g (start_row H W t) (end_row H W t) fb)
    (j * c.image_width.toNat + i) (fun t => ownsRow H W t j)
    (pixel_color_sum c world g i j)
    (List.range W)
    (by
      intro fb' t _ hown
      exact render_section_set c world g _ _ j i hown.1 hown.2 hi fb')
    (by
      intro fb' t _ hnot
      exact render_section_preserve c world g _ _ j i hi
        (fun hcontra => hnot hcontra) fb')
    (fun _ => ⟨0, 0, 0⟩)
  have hunfold : render_fb c0 world g hc =
      (List.range W).foldl
        (fun fb t =>
          render_section c world g (start_row H W t) (end_row H W t) fb)
        (fun _ => ⟨0, 0, 0⟩) := rfl
  rw [hunfold]
  exact hmain.1 ⟨t0, List.mem_range.mpr ht0W, ht0own⟩

/-- Left-fold accumulation from zero is the finite sum. -/
theorem foldl_add_range (f : ℕ → color) (n : ℕ) :
    (List.range n).foldl (fun acc s => acc + f s) (⟨0, 0, 0⟩ : color) =
      ∑ s in Finset.range n, f s := by
  induction n with
  | zero => simp
  | succ n ih =>
    rw [List.range_succ, List.foldl_append, ih, Finset.sum_range_succ]
    rfl

/-- The sample loop of `render_section` computes the sum of the per-sample
colors of its pixel. -/
theorem pixel_color_sum_eq (c : camera) (world : hittable) (g : rng_source)
    (i j : ℕ) :
    pixel_color_sum c world g i j =
      ∑ s in Finset.range c.samples_per_pixel.toNat,
        ray_color world (sample_ray c g i j s) c.max_depth :=
  foldl_add_range _ _

/-! ## Claim theorems -/

/-- C1: for every image height `H` and worker count `W` with `1 ≤ W ≤ H`,
the assigned row ranges lie inside `[0, H)`, are contiguous (each range ends
where the next begins, the final one absorbing the remainder up to `H`), are
non-overlapping with union exactly `[0, H)` (every row owned by exactly one
worker), and consequently every row-major framebuffer index below
`H * width` is written by exactly one worker. -/
theorem claim_C1_scheduler_partition (H W width : ℕ)
    (hW1 : 1 ≤ W) (hWH : W ≤ H) (hwidth : 0 < width) :
    (∀ t, t < W → start_row H W t ≤ end_row H W t ∧ end_row H W t ≤ H) ∧
    (∀ t, t + 1 < W → end_row H W t = start_row H W (t + 1)) ∧
    end_row H W (W - 1) = H ∧
    (∀ j, j < H → ∃! t, t < W ∧ ownsRow H W t j) ∧
    (∀ idx, idx < H * width → ∃! t, t < W ∧ writesIndex H W width t idx) := by
  refine ⟨?_, ?_, ?_, ?_, ?_⟩
  · intro t ht
    refine ⟨?_, end_row_le H W t ht⟩
    unfold end_row start_row rows_per_thread
    by_cases h : t = W - 1
    · subst h
      simp only [if_pos rfl]
      calc (W - 1) * (H / W) ≤ W * (H / W) := Nat.mul_le_mul_right _ (by omega)
      _ = (H / W) * W := by ring
      _ ≤ H := Nat.div_mul_le_self H W
    · simp only [if_neg h]
      exact Nat.le_add_right _ _
  · intro t ht
    unfold end_row start_row rows_per_thread
    have h : t ≠ W - 1 := by omega
    simp only [if_neg h]; ring
  · unfold end_row; simp
  · exact fun j hj => ownsRow_existsUnique H W hW1 j hj
  · intro idx hidx
    have hj : idx / width < H := (Nat.div_lt_iff_lt_mul hwidth).mpr hidx
    have hi : idx % width < width := Nat.mod_lt idx hwidth
    have hdec : idx = idx / width * width + idx % width := by
      have h1 := Nat.div_add_mod idx width
      have h2 : width * (idx / width) = idx / width * width := Nat.mul_comm _ _
      omega
    obtain ⟨t0, ⟨ht0W, ht0own⟩, huniq⟩ :=
      ownsRow_existsUnique H W hW1 (idx / width) hj
    refine ⟨t0, ⟨ht0W, idx / width, idx % width, ht0own, hi, hdec⟩, ?_⟩
    rintro t' ⟨ht'W, j', i', hown', hi', heq⟩
    have hji : j' = idx / width ∧ i' = idx % width := by
      refine row_index_inj width j' (idx / width) i' (idx % width) hi' hi ?_
      rw [← heq, ← hdec]
    exact huniq t' ⟨ht'W, hji.1 ▸ hown'⟩

/-- C10: when the worker count `W` strictly exceeds the image height `H`
(and `W ≥ 1`), `rows_per_thread = H / W` is `0`, every worker except the
last gets the empty range `[0, 0)`, the last worker gets `[0, H)`, and every
row is still owned by exactly one worker. -/
theorem claim_C10_overprovisioned_partition (H W : ℕ)
    (hW1 : 1 ≤ W) (hHW : H < W) :
    rows_per_thread H W = 0 ∧
    (∀ t, t < W - 1 → start_row H W t = 0 ∧ end_row H W t = 0) ∧
    start_row H W (W - 1) = 0 ∧ end_row H W (W - 1) = H ∧
    (∀ j, j < H → ∃! t, t < W ∧ ownsRow H W t j) := by
  have hq : rows_per_thread H W = 0 := Nat.div_eq_of_lt hHW
  refine ⟨hq, ?_, ?_, ?_, fun j hj => ownsRow_existsUnique H W hW1 j hj⟩
  · intro t ht
    have hne : t ≠ W - 1 := by omega
    unfold end_row
    simp [start_row, hq, hne]
  · simp [start_row, hq]
  · unfold end_row; simp

/-- C6 (divergence witness): the code takes the worker count verbatim from
`std::thread::hardware_concurrency()` with no fallback; when the platform
reports `0` the worker count is `0`, no worker exists, and no row of any
image is assigned to any worker (in the C++ source, `image_height /
thread_count` additionally divides by zero).  The spec instead requires a
fallback to `1`. -/
theorem claim_C6_no_fallback :
    worker_count 0 = 0 ∧
      ∀ H j t, ¬(t < worker_count 0 ∧ ownsRow H (worker_count 0) t j) := by
  refine ⟨rfl, ?_⟩
  rintro H j t ⟨ht, _⟩
  exact Nat.not_lt_zero t ht

/-- C2: at depth ≥ 1, when the scene reports a hit the integrator's value is
determined by the hit material's scatter result: a successful scatter gives
the attenuation multiplied component-wise by the recursive resolution of the
scattered ray at depth − 1, and absorption gives exactly black. -/
theorem claim_C2_hit_scatter (world : hittable) (r : ray) (depth : ℤ)
    (hd : 1 ≤ depth) (rec : hit_record)
    (hh : world.hit r ⟨0.001, infinity⟩ = some rec) :
    (∀ attenuation scattered,
      rec.mat.scatter r rec.core = some (attenuation, scattered) →
      ray_color world r depth =
        attenuation * ray_color world scattered (depth - 1)) ∧
    (rec.mat.scatter r rec.core = none →
      ray_color world r depth = ⟨0, 0, 0⟩) := by
  have hnd : ¬depth ≤ 0 := by omega
  have h := ray_color_hit world r depth hnd rec hh
  constructor
  · intro attenuation scattered hs
    rw [h, hs]
  · intro hs
    rw [h, hs]

/-- C3: at depth ≤ 0 the integrator returns exactly black, for every ray and
every scene — in particular the value does not depend on the scene at all. -/
theorem claim_C3_depth_exhausted (world : hittable) (r : ray) (depth : ℤ)
    (hd : depth ≤ 0) :
    ray_color world r depth = ⟨0, 0, 0⟩ ∧
      ∀ world' : hittable, ray_color world r depth = ray_color world' r depth := by
  refine ⟨ray_color_base world r depth hd, fun world' => ?_⟩
  rw [ray_color_base world r depth hd, ray_color_base world' r depth hd]

/-- Normalizing the straight-up direction `(0, 1, 0)` leaves it unchanged. -/
theorem unit_vector_up : unit_vector ⟨0, 1, 0⟩ = ⟨0, 1, 0⟩ := by
  have hls : vec3.length_squared ⟨0, 1, 0⟩ = 1 := by
    simp [vec3.length_squared]
  have hl : vec3.length ⟨0, 1, 0⟩ = 1 := by
    rw [vec3.length, hls, Real.sqrt_one]
  rw [unit_vector, hl]
  ext <;> simp

/-- Normalizing the straight-down direction `(0, -1, 0)` leaves it
unchanged. -/
theorem unit_vector_down : unit_vector ⟨0, -1, 0⟩ = ⟨0, -1, 0⟩ := by
  have hls : vec3.length_squared ⟨0, -1, 0⟩ = 1 := by
    simp [vec3.length_squared]
  have hl : vec3.length ⟨0, -1, 0⟩ = 1 := by
    rw [vec3.length, hls, Real.sqrt_one]
  rw [unit_vector, hl]
  ext <;> simp

/-- C4: at depth ≥ 1, a ray the scene misses evaluates to the background
gradient `(1 − a)·white + a·skyblue` with `a = 0.5·(unit_direction.y + 1)`;
direction `(0, 1, 0)` gives exactly the sky blue `(0.5, 0.7, 1.0)` and
direction `(0, −1, 0)` gives exactly white `(1, 1, 1)`. -/
theorem claim_C4_miss_background (world : hittable) (r : ray) (depth : ℤ)
    (hd : 1 ≤ depth) (hm : world.hit r ⟨0.001, infinity⟩ = none) :
    ray_color world r depth =
      (1 - 0.5 * ((unit_vector r.direction).y + 1)) • (⟨1, 1, 1⟩ : color) +
        (0.5 * ((unit_vector r.direction).y + 1)) • (⟨0.5, 0.7, 1⟩ : color) ∧
    (r.direction = ⟨0, 1, 0⟩ → ray_color world r depth = ⟨0.5, 0.7, 1⟩) ∧
    (r.direction = ⟨0, -1, 0⟩ → ray_color world r depth = ⟨1, 1, 1⟩) := by
  have hnd : ¬depth ≤ 0 := by omega
  have h := ray_color_miss_eq world r depth hnd hm
  refine ⟨by rw [h]; norm_num, ?_, ?_⟩
  · intro hdir
    rw [h, hdir, unit_vector_up]
    ext <;> simp <;> norm_num
  · intro hdir
    rw [h, hdir, unit_vector_down]
    ext <;> simp <;> norm_num

/-- C7: with `defocus_angle ≤ 0` the sampled ray's origin is exactly the
camera center (no lens sampling), and its direction is the jittered pixel
sample position minus that origin, for every pixel and every draw of the
random offsets. -/
theorem claim_C7_defocus_disabled (c : camera) (hd : c.defocus_angle ≤ 0)
    (i j : ℕ) (offset p : vec3) :
    (get_ray c i j offset p).origin = c.center ∧
    (get_ray c i j offset p).direction =
      c.pixel00_loc + ((i : ℝ) + offset.x) • c.pixel_delta_u +
        ((j : ℝ) + offset.y) • c.pixel_delta_v - c.center := by
  constructor <;> simp [get_ray, hd]

/-- C8: for image_width ≥ 1 and aspect_ratio > 0, the derived image height
is `max(1, floor(image_width / aspect_ratio))`; in particular the default
configuration (width 400, aspect 16/9) derives height 225. -/
theorem claim_C8_image_height (c : camera)
    (hw : 1 ≤ c.image_width) (ha : 0 < c.aspect_ratio) :
    (initializeCamera c).image_height =
      max 1 ⌊(c.image_width : ℝ) / c.aspect_ratio⌋ ∧
    (initializeCamera cam_default).image_height = 225 := by
  constructor
  · have hx : (0 : ℝ) ≤ (c.image_width : ℝ) / c.aspect_ratio := by
      apply div_nonneg _ (le_of_lt ha)
      exact_mod_cast (by omega : (0 : ℤ) ≤ c.image_width)
    simp only [initializeCamera, cppTrunc, if_pos hx]
    rcases le_or_lt 1 ⌊(c.image_width : ℝ) / c.aspect_ratio⌋ with h | h
    · rw [if_neg (by omega), max_eq_right h]
    · rw [if_pos h, max_eq_left (by omega)]
  · have hx : ((cam_default.image_width : ℝ) / cam_default.aspect_ratio) = 225 := by
      simp only [cam_default]
      norm_num
    simp only [initializeCamera, cppTrunc, hx]
    norm_num

/-- C9: two renders from camera states that agree on every public
configuration field (but may hold arbitrary stale derived state) first
recompute identical derived geometry and then produce identical
framebuffers — re-running `render` with identical config, scene and random
source is bit-identical. -/
theorem claim_C9_deterministic_rerender (c1 c2 : camera) (world : hittable)
    (g : rng_source) (hc : ℕ)
    (h1 : c1.aspect_ratio = c2.aspect_ratio)
    (h2 : c1.image_width = c2.image_width)
    (h3 : c1.samples_per_pixel = c2.samples_per_pixel)
    (h4 : c1.max_depth = c2.max_depth)
    (h5 : c1.vfov = c2.vfov)
    (h6 : c1.lookfrom = c2.lookfrom)
    (h7 : c1.lookat = c2.lookat)
    (h8 : c1.vup = c2.vup)
    (h9 : c1.defocus_angle = c2.defocus_angle)
    (h10 : c1.focus_dist = c2.focus_dist) :
    initializeCamera c1 = initializeCamera c2 ∧
    ∀ idx, render_fb c1 world g hc idx = render_fb c2 world g hc idx := by
  have hinit : initializeCamera c1 = initializeCamera c2 := by
    cases c1
    cases c2
    simp only at h1 h2 h3 h4 h5 h6 h7 h8 h9 h10
    subst h1 h2 h3 h4 h5 h6 h7 h8 h9 h10
    rfl
  refine ⟨hinit, fun idx => ?_⟩
  have : render_fb c1 world g hc = render_fb c2 world g hc := by
    simp only [render_fb, hinit]
  rw [this]

/-- C5: after all workers finish (for any worker count ≥ 1), the
framebuffer entry at row-major index `j·width + i` is the **sum** of the
per-sample colors of pixel `(i, j)`; `pixel_samples_scale` is
`1 / samples_per_pixel`; and the value handed to emission is that sum
scaled by `pixel_samples_scale`, i.e. the per-pixel average. -/
theorem claim_C5_framebuffer_sum (c0 : camera) (world : hittable)
    (g : rng_source) (hc : ℕ) (hW : 1 ≤ hc) (i j : ℕ)
    (hi : i < (initializeCamera c0).image_width.toNat)
    (hj : j < (initializeCamera c0).image_height.toNat) :
    render_fb c0 world g hc
        (j * (initializeCamera c0).image_width.toNat + i) =
      (∑ s in Finset.range (initializeCamera c0).samples_per_pixel.toNat,
        ray_color world (sample_ray (initializeCamera c0) g i j s)
          (initializeCamera c0).max_depth) ∧
    (initializeCamera c0).pixel_samples_scale =
      1 / ((initializeCamera c0).samples_per_pixel : ℝ) ∧
    emitted_pixel c0 world g hc i j =
      (1 / ((initializeCamera c0).samples_per_pixel : ℝ)) •
        (∑ s in Finset.range (initializeCamera c0).samples_per_pixel.toNat,
          ray_color world (sample_ray (initializeCamera c0) g i j s)
            (initializeCamera c0).max_depth) := by
  have h1 := render_fb_lookup c0 world g hc hW i j hi hj
  have h2 := pixel_color_sum_eq (initializeCamera c0) world g i j
  have hscale : (initializeCamera c0).pixel_samples_scale =
      1 / ((initializeCamera c0).samples_per_pixel : ℝ) := by
    simp [initializeCamera]
    norm_num
  refine ⟨h1.trans h2, hscale, ?_⟩
  show (initializeCamera c0).pixel_samples_scale •
      render_fb c0 world g hc
        (j * (initializeCamera c0).image_width.toNat + i) = _
  rw [h1, h2, hscale]

/-- The 1×1 configuration derives image height 1. -/
theorem cam_unit_image_height : (initializeCamera cam_unit).image_height = 1 := by
  have hx : ((cam_unit.image_width : ℝ) / cam_unit.aspect_ratio) = 1 := by
    simp [cam_unit, cam_default]
  simp only [initializeCamera, cppTrunc, hx]
  norm_num

/-- Witness for C1 at `H = 4`, `W = 2`, `width = 3`. -/
theorem claim_C1_witness :
    ((1 : ℕ) ≤ 2 ∧ (2 : ℕ) ≤ 4 ∧ (0 : ℕ) < 3) ∧
      (∀ j, j < 4 → ∃! t, t < 2 ∧ ownsRow 4 2 t j) ∧
      (∀ idx, idx < 4 * 3 → ∃! t, t < 2 ∧ writesIndex 4 2 3 t idx) := by
  have h := claim_C1_scheduler_partition 4 2 3 (by decide) (by decide) (by decide)
  exact ⟨⟨by decide, by decide, by decide⟩, h.2.2.2.1, h.2.2.2.2⟩

/-- Witness for C10 at `H = 2`, `W = 5`. -/
theorem claim_C10_witness :
    rows_per_thread 2 5 = 0 ∧ start_row 2 5 4 = 0 ∧ end_row 2 5 4 = 2 ∧
      (∀ j, j < 2 → ∃! t, t < 5 ∧ ownsRow 2 5 t j) := by
  have h := claim_C10_overprovisioned_partition 2 5 (by decide) (by decide)
  exact ⟨h.1, h.2.2.1, h.2.2.2.1, h.2.2.2.2⟩

/-- Witness for C2: an always-absorbing scene resolves to black at depth 1. -/
theorem claim_C2_witness :
    ray_color absorbing_world ⟨⟨0, 0, 0⟩, ⟨0, 0, -1⟩⟩ 1 = ⟨0, 0, 0⟩ :=
  (claim_C2_hit_scatter absorbing_world ⟨⟨0, 0, 0⟩, ⟨0, 0, -1⟩⟩ 1 (by norm_num)
    absorbing_rec rfl).2 rfl

/-- Witness for C3: depth 0 resolves to black on a concrete ray and scene. -/
theorem claim_C3_witness :
    ray_color empty_world ⟨⟨0, 0, 0⟩, ⟨1, 2, 3⟩⟩ 0 = ⟨0, 0, 0⟩ :=
  (claim_C3_depth_exhausted empty_world ⟨⟨0, 0, 0⟩, ⟨1, 2, 3⟩⟩ 0 (by norm_num)).1

/-- Witness for C4: a straight-up ray against the empty scene resolves to
exactly the sky blue. -/
theorem claim_C4_witness :
    ray_color empty_world ⟨⟨0, 0, 0⟩, ⟨0, 1, 0⟩⟩ 5 = ⟨0.5, 0.7, 1⟩ :=
  ((claim_C4_miss_background empty_world ⟨⟨0, 0, 0⟩, ⟨0, 1, 0⟩⟩ 5 (by norm_num)
    rfl).2.1) rfl

/-- Witness for C7: with the default camera (defocus angle 0), a sampled
ray originates at the camera center. -/
theorem claim_C7_witness :
    (get_ray cam_default 3 7 ⟨0.25, -0.25, 0⟩ ⟨1, 0, 0⟩).origin =
      cam_default.center :=
  (claim_C7_defocus_disabled cam_default (le_refl 0) 3 7 ⟨0.25, -0.25, 0⟩
    ⟨1, 0, 0⟩).1

/-- Witness for C8 at the default configuration: width 400, aspect 16/9,
derived height 225. -/
theorem claim_C8_witness :
    (initializeCamera cam_default).image_height =
      max 1 ⌊(cam_default.image_width : ℝ) / cam_default.aspect_ratio⌋ ∧
    (initializeCamera cam_default).image_height = 225 :=
  claim_C8_image_height cam_default (by norm_num [cam_default])
    (by norm_num [cam_default])

/-- Witness for C9: rendering from a fresh camera state and from one
carrying stale derived fields gives identical framebuffers. -/
theorem claim_C9_witness :
    initializeCamera cam_unit = initializeCamera cam_unit_stale ∧
      ∀ idx, render_fb cam_unit empty_world zero_rng 1 idx =
        render_fb cam_unit_stale empty_world zero_rng 1 idx :=
  claim_C9_deterministic_rerender cam_unit cam_unit_stale empty_world zero_rng 1
    rfl rfl rfl rfl rfl rfl rfl rfl rfl rfl

/-- Witness for C5 on the 1×1, 1-sample configuration with one worker. -/
theorem claim_C5_witness :
    0 < (initializeCamera cam_unit).image_height.toNat ∧
    emitted_pixel cam_unit empty_world zero_rng 1 0 0 =
      (1 / ((initializeCamera cam_unit).samples_per_pixel : ℝ)) •
        (∑ s in Finset.range (initializeCamera cam_unit).samples_per_pixel.toNat,
          ray_color empty_world
            (sample_ray (initializeCamera cam_unit) zero_rng 0 0 s)
            (initializeCamera cam_unit).max_depth) := by
  have hj : 0 < (initializeCamera cam_unit).image_height.toNat := by
    rw [cam_unit_image_height]
    decide
  have hi : 0 < (initializeCamera cam_unit).image_width.toNat := by
    show 0 < cam_unit.image_width.toNat
    norm_num [cam_unit, cam_default]
  exact ⟨hj, (claim_C5_framebuffer_sum cam_unit empty_world zero_rng 1
    (le_refl 1) 0 0 hi hj).2.2⟩

end Raytracer
